import Mathlib

/-!
Verification of the llbuild core components in this repository, as a shallow
embedding in Lean 4.

The embedding covers:
* the makefile-style dependency parser (`lib/Core/MakefileDepsParser.cpp`);
* the external command rule (`lib/BuildSystem/ExternalCommand.cpp`);
* the build-system frontend driver (`BuildSystemFrontend.cpp`);
* the build-description loader root parsing (`lib/BuildSystem/BuildFile.cpp`);
* the core build engine, modelled from the specification (the engine's own
  implementation file is not part of this snapshot; only its unit tests are).

Buffers are modelled as `List Char`; the C++ pointer pair `(cur, end)` is
modelled as the remaining suffix of the buffer.  Byte offsets reported in
error callbacks are recovered as `total length - remaining length`.
-/

namespace Spec2Proof

/-! ## Makefile-deps parser (`MakefileDepsParser.cpp`) -/

/-- `isWordChar` from `MakefileDepsParser.cpp`: every character is a word
character except `\0 \t \n space $ : ; = | %`. -/
def isWordChar (c : Char) : Bool :=
  !(c = '\x00' || c = '\t' || c = '\n' || c = ' ' || c = '$' || c = ':' ||
    c = ';' || c = '=' || c = '|' || c = '%')

/-- The inner loop of `skipWhitespaceAndComments` executed upon seeing `#`:
`while (cur + 1 != end && cur[1] == '\n') ++cur;` followed by the enclosing
`for` loop's `++cur`.  Takes the suffix *after* the `#` and returns the
suffix at which the outer loop resumes.  Note that, exactly as in the C++,
this advances only across newlines that directly follow the `#`; it does
not skip the body of the comment. -/
def skipCommentTail : List Char → List Char
  | [] => []
  | b :: rest => if b = '\n' then skipCommentTail rest else b :: rest

theorem skipCommentTail_length_le (l : List Char) :
    (skipCommentTail l).length ≤ l.length := by
  induction l with
  | nil => simp [skipCommentTail]
  | cons b rest ih =>
    simp only [skipCommentTail]
    split
    · exact Nat.le_trans ih (Nat.le_succ _)
    · exact Nat.le_refl _

/-- `skipWhitespaceAndComments` from `MakefileDepsParser.cpp`, acting on the
remaining suffix. -/
def skipWhitespaceAndComments : List Char → List Char
  | [] => []
  | c :: rest =>
    if c = '#' then
      skipWhitespaceAndComments (skipCommentTail rest)
    else if c = ' ' || c = '\t' || c = '\n' then
      skipWhitespaceAndComments rest
    else
      c :: rest
termination_by l => l.length
decreasing_by
  · simp only [List.length_cons]
    have := skipCommentTail_length_le rest
    omega
  · simp only [List.length_cons]
    omega

theorem skipWhitespaceAndComments_length_le (l : List Char) :
    (skipWhitespaceAndComments l).length ≤ l.length := by
  induction l using skipWhitespaceAndComments.induct with
  | case1 => simp [skipWhitespaceAndComments]
  | case2 rest ih =>
    rw [skipWhitespaceAndComments, if_pos rfl]
    have := skipCommentTail_length_le rest
    simp only [List.length_cons]
    omega
  | case3 b rest h1 h2 ih =>
    rw [skipWhitespaceAndComments, if_neg h1, if_pos h2]
    simp only [List.length_cons]
    omega
  | case4 b rest h1 h2 =>
    rw [skipWhitespaceAndComments, if_neg h1, if_neg h2]

/-- `skipNonNewlineWhitespace` from `MakefileDepsParser.cpp`: skips spaces,
tabs and escaped (backslash) newlines. -/
def skipNonNewlineWhitespace : List Char → List Char
  | [] => []
  | c :: rest =>
    if c = ' ' || c = '\t' then
      skipNonNewlineWhitespace rest
    else if c = '\\' ∧ rest.head? = some '\n' then
      skipNonNewlineWhitespace rest.tail
    else
      c :: rest
termination_by l => l.length
decreasing_by
  · simp only [List.length_cons]
    omega
  · simp only [List.length_cons]
    have : rest.tail.length ≤ rest.length := by
      cases rest <;> simp
    omega

theorem skipNonNewlineWhitespace_length_le (l : List Char) :
    (skipNonNewlineWhitespace l).length ≤ l.length := by
  induction l using skipNonNewlineWhitespace.induct with
  | case1 => simp [skipNonNewlineWhitespace]
  | case2 c rest h ih =>
    rw [skipNonNewlineWhitespace, if_pos h]
    simp only [List.length_cons]
    omega
  | case3 c rest h1 h2 ih =>
    rw [skipNonNewlineWhitespace, if_neg h1, if_pos h2]
    have : rest.tail.length ≤ rest.length := by
      cases rest <;> simp
    simp only [List.length_cons]
    omega
  | case4 c rest h1 h2 =>
    rw [skipNonNewlineWhitespace, if_neg h1, if_neg h2]

/-- `skipToEndOfLine` from `MakefileDepsParser.cpp`: advance past the next
newline (or to the end of the buffer). -/
def skipToEndOfLine : List Char → List Char
  | [] => []
  | c :: rest => if c = '\n' then rest else skipToEndOfLine rest

theorem skipToEndOfLine_length_le (l : List Char) :
    (skipToEndOfLine l).length ≤ l.length := by
  induction l with
  | nil => simp [skipToEndOfLine]
  | cons c rest ih =>
    simp only [skipToEndOfLine]
    split
    · exact Nat.le_succ _
    · exact Nat.le_trans ih (Nat.le_succ _)

theorem skipToEndOfLine_cons_length_le (c : Char) (rest : List Char) :
    (skipToEndOfLine (c :: rest)).length ≤ rest.length := by
  simp only [skipToEndOfLine]
  split
  · exact Nat.le_refl _
  · exact skipToEndOfLine_length_le rest

/-- `lexWord` from `MakefileDepsParser.cpp`.  Returns the consumed word and
the remaining suffix.  A backslash escapes the following byte (both become
part of the word) unless it begins a `\<newline>` line continuation, which
ends the word before the backslash. -/
def lexWord : List Char → List Char × List Char
  | [] => ([], [])
  | c :: rest =>
    if c = '\\' then
      if rest.head? = some '\n' then ([], c :: rest)
      else if rest.isEmpty then ([c], [])
      else
        let p := lexWord rest.tail
        (c :: rest.headD c :: p.1, p.2)
    else if isWordChar c then
      let p := lexWord rest
      (c :: p.1, p.2)
    else ([], c :: rest)
termination_by l => l.length
decreasing_by
  · simp only [List.length_cons]
    have : rest.tail.length ≤ rest.length := by
      cases rest <;> simp
    omega
  · simp only [List.length_cons]
    omega

theorem lexWord_rest_length_le (l : List Char) :
    (lexWord l).2.length ≤ l.length := by
  induction l using lexWord.induct with
  | case1 => simp [lexWord]
  | case2 rest h =>
    rw [lexWord, if_pos rfl, if_pos h]
  | case3 rest h1 h2 =>
    rw [lexWord, if_pos rfl, if_neg h1, if_pos h2]
    simp
  | case4 rest h1 h2 ih =>
    rw [lexWord, if_pos rfl, if_neg h1, if_neg h2]
    have : rest.tail.length ≤ rest.length := by
      cases rest <;> simp
    simp only [List.length_cons]
    omega
  | case5 c rest h1 h2 ih =>
    rw [lexWord, if_neg h1, if_pos h2]
    simp only [List.length_cons]
    omega
  | case6 c rest h1 h2 =>
    rw [lexWord, if_neg h1, if_neg h2]

theorem lexWord_rest_length_lt (l : List Char)
    (h : (lexWord l).1 ≠ []) : (lexWord l).2.length < l.length := by
  induction l using lexWord.induct with
  | case1 => simp [lexWord] at h
  | case2 rest hh =>
    rw [lexWord, if_pos rfl, if_pos hh] at h
    simp at h
  | case3 rest h1 h2 =>
    rw [lexWord, if_pos rfl, if_neg h1, if_pos h2]
    simp
  | case4 rest h1 h2 ih =>
    rw [lexWord, if_pos rfl, if_neg h1, if_neg h2]
    have := lexWord_rest_length_le rest.tail
    have : rest.tail.length ≤ rest.length := by
      cases rest <;> simp
    simp only [List.length_cons]
    omega
  | case5 c rest h1 h2 ih =>
    rw [lexWord, if_neg h1, if_pos h2]
    have := lexWord_rest_length_le rest
    simp only [List.length_cons]
    omega
  | case6 c rest h1 h2 =>
    rw [lexWord, if_neg h1, if_neg h2] at h
    simp [lexWord] at h

/-- Callback events emitted by `MakefileDepsParser::parse` through its
`ParseActions` interface. -/
inductive MDEvent where
  | ruleStart (w : String)
  | ruleDep (w : String)
  | ruleEnd
  | parseError (msg : String) (offset : Nat)
  deriving DecidableEq

/-- A nonempty list loses at least one element under `skipToEndOfLine`. -/
theorem skipToEndOfLine_length_lt (l : List Char) (h : l ≠ []) :
    (skipToEndOfLine l).length < l.length := by
  cases l with
  | nil => exact absurd rfl h
  | cons c rest =>
    have := skipToEndOfLine_cons_length_le c rest
    simp only [List.length_cons]
    omega

/-- The inner prerequisite loop of `MakefileDepsParser::parse` (the
`while (cur != end)` loop consuming dependency words until end of line).
`n` is the total buffer length, used to recover byte offsets.  Returns the
emitted events and the remaining suffix. -/
def depsLoop (n : Nat) (cur : List Char) : List MDEvent × List Char :=
  let cur1 := skipNonNewlineWhitespace cur
  if cur1.isEmpty then ([], [])
  else if cur1.headD ' ' = '\n' then ([], cur1)
  else if hw : (lexWord cur1).1 = [] then
    let q := depsLoop n (skipToEndOfLine cur1)
    (MDEvent.parseError "unexpected character in prerequisites"
        (n - cur1.length) :: q.1, q.2)
  else
    let q := depsLoop n (lexWord cur1).2
    (MDEvent.ruleDep (String.mk (lexWord cur1).1) :: q.1, q.2)
termination_by cur.length
decreasing_by
  · rename_i h0 hnl
    have h1 := skipNonNewlineWhitespace_length_le cur
    have h2 := skipToEndOfLine_length_lt (skipNonNewlineWhitespace cur)
      (by simpa using h0)
    omega
  · rename_i h0 hnl
    have h1 := skipNonNewlineWhitespace_length_le cur
    have h2 := lexWord_rest_length_lt (skipNonNewlineWhitespace cur) hw
    omega

theorem depsLoop_rest_length_le (n : Nat) (cur : List Char) :
    (depsLoop n cur).2.length ≤ cur.length := by
  rw [depsLoop]
  simp only []
  have h1 := skipNonNewlineWhitespace_length_le cur
  split
  · simp
  · split
    · exact h1
    · split
      · rename_i h0 hnl hw
        have ih := depsLoop_rest_length_le n
          (skipToEndOfLine (skipNonNewlineWhitespace cur))
        have h2 := skipToEndOfLine_length_lt (skipNonNewlineWhitespace cur)
          (by simpa using h0)
        simp only []
        omega
      · rename_i h0 hnl hw
        have ih := depsLoop_rest_length_le n
          (lexWord (skipNonNewlineWhitespace cur)).2
        have h2 := lexWord_rest_length_lt (skipNonNewlineWhitespace cur) hw
        simp only []
        omega
termination_by cur.length
decreasing_by
  · rename_i h0 hnl hw
    have h2 := lexWord_rest_length_lt (skipNonNewlineWhitespace cur) hw
    omega
  · rename_i h0 hnl hw
    have h2 := skipToEndOfLine_length_lt (skipNonNewlineWhitespace cur)
      (by simpa using h0)
    omega

/-- `MakefileDepsParser::parse` from `MakefileDepsParser.cpp`: the outer
loop.  `n` is the total buffer length (used for reported offsets), `cur`
the remaining suffix. -/
def mdparseLoop (n : Nat) (cur : List Char) : List MDEvent :=
  let cur1 := skipWhitespaceAndComments cur
  if cur1.isEmpty then []
  else if hw : (lexWord cur1).1 = [] then
    MDEvent.parseError "unexpected character in file" (n - cur1.length)
      :: mdparseLoop n (skipToEndOfLine cur1)
  else
    let r2 := skipNonNewlineWhitespace (lexWord cur1).2
    if !r2.isEmpty && r2.headD ' ' = ':' then
      MDEvent.ruleStart (String.mk (lexWord cur1).1)
        :: ((depsLoop n r2.tail).1 ++
            MDEvent.ruleEnd :: mdparseLoop n (depsLoop n r2.tail).2)
    else
      MDEvent.ruleStart (String.mk (lexWord cur1).1)
        :: MDEvent.parseError "missing colon following rule" (n - r2.length)
        :: MDEvent.ruleEnd
        :: mdparseLoop n (skipToEndOfLine r2)
termination_by cur.length
decreasing_by
  · rename_i h0
    have h1 := skipWhitespaceAndComments_length_le cur
    have h2 := skipToEndOfLine_length_lt (skipWhitespaceAndComments cur)
      (by simpa using h0)
    omega
  · rename_i h0 hcl
    have h1 := skipWhitespaceAndComments_length_le cur
    have h2 := lexWord_rest_length_lt (skipWhitespaceAndComments cur) hw
    have h3 := skipNonNewlineWhitespace_length_le
      (lexWord (skipWhitespaceAndComments cur)).2
    have h4 := depsLoop_rest_length_le n
      (skipNonNewlineWhitespace (lexWord (skipWhitespaceAndComments cur)).2).tail
    have h5 : (skipNonNewlineWhitespace
        (lexWord (skipWhitespaceAndComments cur)).2).tail.length ≤
        (skipNonNewlineWhitespace (lexWord (skipWhitespaceAndComments cur)).2).length := by
      cases skipNonNewlineWhitespace (lexWord (skipWhitespaceAndComments cur)).2 <;> simp
    omega
  · rename_i h0 hcl
    have h1 := skipWhitespaceAndComments_length_le cur
    have h2 := lexWord_rest_length_lt (skipWhitespaceAndComments cur) hw
    have h3 := skipNonNewlineWhitespace_length_le
      (lexWord (skipWhitespaceAndComments cur)).2
    have h4 := skipToEndOfLine_length_le
      (skipNonNewlineWhitespace (lexWord (skipWhitespaceAndComments cur)).2)
    omega

/-- `MakefileDepsParser::parse`: parse a whole buffer, producing the event
stream delivered to the `ParseActions` callbacks. -/
def mdparse (s : String) : List MDEvent :=
  mdparseLoop s.data.length s.data

example : mdparse "t: u v" =
    [MDEvent.ruleStart "t", MDEvent.ruleDep "u", MDEvent.ruleDep "v",
     MDEvent.ruleEnd] := by
  simp [mdparse, mdparseLoop, depsLoop, skipWhitespaceAndComments,
        skipNonNewlineWhitespace, lexWord, skipToEndOfLine, skipCommentTail,
        isWordChar, Char.reduceEq]

/-- Classifies the events that the inner prerequisite loop may emit:
dependency and error events only. -/
def isDepOrError : MDEvent → Bool
  | .ruleDep _ => true
  | .parseError _ _ => true
  | _ => false

mutual

/-- Well-formedness of a callback stream, outside of any rule: a
`ruleStart` opens a rule (checked by `wfInRule`); errors may appear freely;
`ruleDep` and `ruleEnd` may not appear here. -/
def wfEvents : List MDEvent → Bool
  | [] => true
  | .ruleStart _ :: rest => wfInRule rest
  | .parseError _ _ :: rest => wfEvents rest
  | .ruleDep _ :: _ => false
  | .ruleEnd :: _ => false

/-- Well-formedness of a callback stream inside an open rule: dependencies
and errors may appear; exactly one `ruleEnd` closes the rule; a nested
`ruleStart` or running out of events without a `ruleEnd` is ill-formed. -/
def wfInRule : List MDEvent → Bool
  | [] => false
  | .ruleEnd :: rest => wfEvents rest
  | .ruleDep _ :: rest => wfInRule rest
  | .parseError _ _ :: rest => wfInRule rest
  | .ruleStart _ :: _ => false

end

theorem depsLoop_events_depOrError (n : Nat) (cur : List Char) :
    ∀ e ∈ (depsLoop n cur).1, isDepOrError e = true := by
  rw [depsLoop]
  simp only []
  split
  · simp
  · split
    · simp
    · split
      · rename_i h0 hnl hw
        have ih := depsLoop_events_depOrError n
          (skipToEndOfLine (skipNonNewlineWhitespace cur))
        intro e he
        simp only [List.mem_cons] at he
        rcases he with he | he
        · subst he; rfl
        · exact ih e he
      · rename_i h0 hnl hw
        have ih := depsLoop_events_depOrError n
          (lexWord (skipNonNewlineWhitespace cur)).2
        intro e he
        simp only [List.mem_cons] at he
        rcases he with he | he
        · subst he; rfl
        · exact ih e he
termination_by cur.length
decreasing_by
  · rename_i h0 hnl hw
    have h1 := skipNonNewlineWhitespace_length_le cur
    have h2 := lexWord_rest_length_lt (skipNonNewlineWhitespace cur) hw
    omega
  · rename_i h0 hnl hw
    have h1 := skipNonNewlineWhitespace_length_le cur
    have h2 := skipToEndOfLine_length_lt (skipNonNewlineWhitespace cur)
      (by simpa using h0)
    omega

theorem wfInRule_append_ruleEnd (ds rest : List MDEvent)
    (h : ∀ e ∈ ds, isDepOrError e = true) :
    wfInRule (ds ++ MDEvent.ruleEnd :: rest) = wfEvents rest := by
  induction ds with
  | nil => simp [wfInRule]
  | cons e ds ih =>
    have he := h e (by simp)
    cases e with
    | ruleStart w => simp [isDepOrError] at he
    | ruleDep w =>
      simp only [List.cons_append, wfInRule]
      exact ih (fun x hx => h x (by simp [hx]))
    | ruleEnd => simp [isDepOrError] at he
    | parseError m o =>
      simp only [List.cons_append, wfInRule]
      exact ih (fun x hx => h x (by simp [hx]))

theorem mdparseLoop_wf (n : Nat) (cur : List Char) :
    wfEvents (mdparseLoop n cur) = true := by
  rw [mdparseLoop]
  simp only []
  split
  · rfl
  · split
    · rename_i h0 hw
      have ih := mdparseLoop_wf n
        (skipToEndOfLine (skipWhitespaceAndComments cur))
      simpa [wfEvents] using ih
    · split
      · rename_i h0 hw hc
        have ih := mdparseLoop_wf n
          (depsLoop n (skipNonNewlineWhitespace
            (lexWord (skipWhitespaceAndComments cur)).2).tail).2
        have hd := depsLoop_events_depOrError n
          (skipNonNewlineWhitespace
            (lexWord (skipWhitespaceAndComments cur)).2).tail
        simp only [wfEvents]
        rw [wfInRule_append_ruleEnd _ _ hd]
        exact ih
      · rename_i h0 hw hc
        have ih := mdparseLoop_wf n
          (skipToEndOfLine (skipNonNewlineWhitespace
            (lexWord (skipWhitespaceAndComments cur)).2))
        simpa [wfEvents, wfInRule] using ih
termination_by cur.length
decreasing_by
  · rename_i h0 hw hc
    have h1 := skipWhitespaceAndComments_length_le cur
    have h2 := lexWord_rest_length_lt (skipWhitespaceAndComments cur) hw
    have h3 := skipNonNewlineWhitespace_length_le
      (lexWord (skipWhitespaceAndComments cur)).2
    have h4 := skipToEndOfLine_length_le
      (skipNonNewlineWhitespace (lexWord (skipWhitespaceAndComments cur)).2)
    omega
  · rename_i h0 hw hc
    have h1 := skipWhitespaceAndComments_length_le cur
    have h2 := lexWord_rest_length_lt (skipWhitespaceAndComments cur) hw
    have h3 := skipNonNewlineWhitespace_length_le
      (lexWord (skipWhitespaceAndComments cur)).2
    have h4 := depsLoop_rest_length_le n
      (skipNonNewlineWhitespace (lexWord (skipWhitespaceAndComments cur)).2).tail
    have h5 : (skipNonNewlineWhitespace
        (lexWord (skipWhitespaceAndComments cur)).2).tail.length ≤
        (skipNonNewlineWhitespace
          (lexWord (skipWhitespaceAndComments cur)).2).length := by
      cases skipNonNewlineWhitespace (lexWord (skipWhitespaceAndComments cur)).2 <;> simp
    omega
  · rename_i h0 hw
    have h1 := skipWhitespaceAndComments_length_le cur
    have h2 := skipToEndOfLine_length_lt (skipWhitespaceAndComments cur)
      (by simpa using h0)
    omega

/-- C10: for every input buffer, the callback stream emitted by
`MakefileDepsParser::parse` is well-formed: every `actOnRuleStart` is
followed by exactly one `actOnRuleEnd` before any later `actOnRuleStart`
or the end of parsing (including the error path where the `:` after the
target is missing), and every `actOnRuleDependency` occurs between an
`actOnRuleStart` and its matching `actOnRuleEnd`. -/
theorem c10_callback_stream_well_formed (s : String) :
    wfEvents (mdparse s) = true :=
  mdparseLoop_wf s.data.length s.data

/-- C4: evaluation of `MakefileDepsParser::parse` at the buffer
`"# c\nt: u"`.  The specification says `#` begins a line comment whose
bytes are all skipped, so the expected event stream would only describe
the rule `t: u`.  The code instead skips just the `#` itself (its inner
loop advances only across newlines directly following the `#`, contrary
to its own comment that it skips to the next newline), so the comment
text `c` is lexed as a rule target and produces a rule-start, an error
and a rule-end event before the events of the real rule. -/
theorem c4_comment_text_not_skipped :
    mdparse "# c\nt: u" =
      [MDEvent.ruleStart "c",
       MDEvent.parseError "missing colon following rule" 3,
       MDEvent.ruleEnd,
       MDEvent.ruleStart "t", MDEvent.ruleDep "u", MDEvent.ruleEnd] := by
  simp [mdparse, mdparseLoop, depsLoop, skipWhitespaceAndComments,
        skipNonNewlineWhitespace, lexWord, skipToEndOfLine, skipCommentTail,
        isWordChar, Char.reduceEq]

/-! ## External command rule (`ExternalCommand.cpp`) -/

/-- File metadata as captured by `basic::FileInfo`: an external collaborator
of `ExternalCommand.cpp`, modelled abstractly as a missing flag plus an
opaque stamp payload compared by equality. -/
structure FileInfo where
  isMissing : Bool
  stamp : Nat
  deriving DecidableEq

/-- The `FileInfo{}` null stamp used for virtual outputs. -/
def FileInfo.null : FileInfo := ⟨true, 0⟩

/-- A `BuildNode` as consumed by `ExternalCommand.cpp`: a name, a virtual
flag, and the node's *current* file metadata (the result of
`node->getFileInfo()` at validation time). -/
structure BuildNode where
  name : String
  isVirtual : Bool
  fileInfo : FileInfo
  deriving DecidableEq

/-- The `BuildValue` tagged union from the build system, restricted to the
variants `ExternalCommand.cpp` constructs or inspects. -/
inductive BuildValue where
  | missingInput
  | existingInput (info : FileInfo)
  | virtualInput
  | failedInput
  | skippedCommand
  | failedCommand
  | successfulCommand (outputInfos : List FileInfo) (signature : Nat)
  deriving DecidableEq

def BuildValue.isExistingInput : BuildValue → Bool
  | .existingInput _ => true
  | _ => false

def BuildValue.isMissingInput : BuildValue → Bool
  | .missingInput => true
  | _ => false

def BuildValue.isVirtualInput : BuildValue → Bool
  | .virtualInput => true
  | _ => false

def BuildValue.isFailedCommand : BuildValue → Bool
  | .failedCommand => true
  | _ => false

def BuildValue.isSkippedCommand : BuildValue → Bool
  | .skippedCommand => true
  | _ => false

def BuildValue.isSuccessfulCommand : BuildValue → Bool
  | .successfulCommand _ _ => true
  | _ => false

/-- `value.getCommandSignature()` for a successful command value. -/
def BuildValue.getCommandSignature : BuildValue → Nat
  | .successfulCommand _ sig => sig
  | _ => 0

/-- The per-output records of a command value
(`value.getNthOutputInfo(i)` indexes into this list). -/
def BuildValue.outputInfos : BuildValue → List FileInfo
  | .successfulCommand infos _ => infos
  | _ => []

/-- `value.getNthOutputInfo(idx)`. -/
def BuildValue.getNthOutputInfo (v : BuildValue) (idx : Nat) : FileInfo :=
  v.outputInfos.getD idx FileInfo.null

/-- The configured shape of an `ExternalCommand`: its input and output
nodes. -/
structure ExtCommand where
  inputs : List BuildNode
  outputs : List BuildNode

/-- `ExternalCommand::getSignature()`: starts from 0 and XORs in
`hashString(name)` for each input node, then each output node.  The hash
function for node names is an external collaborator (`basic::hashString`)
and is taken as a parameter. -/
def getSignature (cmd : ExtCommand) (hash : String → Nat) : Nat :=
  (cmd.outputs.foldl (fun r n => r ^^^ hash n.name)
    (cmd.inputs.foldl (fun r n => r ^^^ hash n.name) 0))

/-- The output-checking loop of `ExternalCommand::isResultValid`: walks the
outputs in order with their stored per-output records; virtual outputs are
ignored, a missing current file rebuilds, and a changed file rebuilds. -/
def checkOutputs : List BuildNode → List FileInfo → Bool
  | [], _ => true
  | node :: ns, infos =>
    if node.isVirtual then checkOutputs ns infos.tail
    else if node.fileInfo.isMissing then false
    else if infos.headD FileInfo.null ≠ node.fileInfo then false
    else checkOutputs ns infos.tail

/-- `ExternalCommand::isResultValid(value)`: requires a successful command
value, an unchanged signature, and unchanged present metadata for each
non-virtual output. -/
def isResultValid (cmd : ExtCommand) (hash : String → Nat)
    (value : BuildValue) : Bool :=
  if !value.isSuccessfulCommand then false
  else if value.getCommandSignature ≠ getSignature cmd hash then false
  else checkOutputs cmd.outputs value.outputInfos

/-- `ExternalCommand::getResultForOutput(node, value)`: failed or skipped
commands project to a failed input; virtual nodes to a virtual input;
otherwise the stored record at the node's index in the output list is
projected to a missing or existing input. -/
def getResultForOutput (cmd : ExtCommand) (node : BuildNode)
    (value : BuildValue) : BuildValue :=
  if value.isFailedCommand || value.isSkippedCommand then .failedInput
  else if node.isVirtual then .virtualInput
  else
    let idx := cmd.outputs.findIdx (· = node)
    let info := value.getNthOutputInfo idx
    if info.isMissing then .missingInput
    else .existingInput info

/-- The per-task state of `ExternalCommand` set up in `start` and mutated
by `provideValue`. -/
structure CmdTaskState where
  shouldSkip : Bool
  hasMissingInput : Bool
  deriving DecidableEq

/-- `ExternalCommand::start` initialises the build state. -/
def cmdStartState : CmdTaskState := ⟨false, false⟩

/-- `ExternalCommand::provideValue`: if the input value is not an existing
or virtual input, the command is marked to be skipped, and a missing input
is additionally recorded. -/
def cmdProvideValue (st : CmdTaskState) (value : BuildValue) : CmdTaskState :=
  if !value.isExistingInput && !value.isVirtualInput then
    { shouldSkip := true,
      hasMissingInput := st.hasMissingInput || value.isMissingInput }
  else st

/-- What `ExternalCommand::inputsAvailable` does after all inputs were
delivered: either the task completes immediately with a value (skip paths)
or a job is submitted to the execution queue. -/
inductive CmdOutcome where
  | completed (v : BuildValue) (reportedFailure : Bool)
  | submittedJob
  deriving DecidableEq

/-- `ExternalCommand::inputsAvailable`: a cancelled build or a skipped
command completes with `SkippedCommand` (reporting a command failure if an
input was missing); otherwise a job invoking the external process is added
to the execution queue. -/
def cmdInputsAvailable (st : CmdTaskState) (cancelled : Bool) : CmdOutcome :=
  if cancelled then .completed .skippedCommand false
  else if st.shouldSkip then .completed .skippedCommand st.hasMissingInput
  else .submittedJob

/-- The state after `start` and a `provideValue` call per input, in order. -/
def cmdStateAfterInputs (values : List BuildValue) : CmdTaskState :=
  values.foldl cmdProvideValue cmdStartState

theorem getD_zero_eq_headD (l : List FileInfo) :
    l.getD 0 FileInfo.null = l.headD FileInfo.null := by
  cases l <;> simp

theorem getD_succ_eq_tail_getD (l : List FileInfo) (i : Nat) :
    l.getD (i + 1) FileInfo.null = l.tail.getD i FileInfo.null := by
  cases l <;> simp

theorem checkOutputs_eq_true_iff (outs : List BuildNode)
    (infos : List FileInfo) :
    checkOutputs outs infos = true ↔
      ∀ i, (hi : i < outs.length) →
        (outs.get ⟨i, hi⟩).isVirtual = false →
          ((outs.get ⟨i, hi⟩).fileInfo.isMissing = false ∧
           infos.getD i FileInfo.null = (outs.get ⟨i, hi⟩).fileInfo) := by
  induction outs generalizing infos with
  | nil => simp [checkOutputs]
  | cons node ns ih =>
    simp only [checkOutputs]
    split
    · rename_i hv
      rw [ih infos.tail]
      constructor
      · intro h i hi hnv
        cases i with
        | zero =>
          simp only [List.get] at hnv
          rw [hv] at hnv
          cases hnv
        | succ j =>
          have hj : j < ns.length := by
            simpa [Nat.succ_lt_succ_iff] using hi
          have := h j hj (by simpa using hnv)
          simpa [getD_succ_eq_tail_getD] using this
      · intro h j hj hnv
        have := h (j + 1) (by simpa [Nat.succ_lt_succ_iff] using hj)
          (by simpa using hnv)
        simpa [getD_succ_eq_tail_getD] using this
    · split
      · rename_i hv hm
        constructor
        · intro h
          cases h
        · intro h
          have := h 0 (by simp) (by simpa using hv)
          simp only [List.get] at this
          rw [hm] at this
          exact absurd this.1 (by simp)
      · split
        · rename_i hv hm hne
          constructor
          · intro h
            cases h
          · intro h
            have := h 0 (by simp) (by simpa using hv)
            simp only [List.get] at this
            rw [getD_zero_eq_headD] at this
            exact absurd this.2 hne
        · rename_i hv hm hne
          rw [ih infos.tail]
          constructor
          · intro h i hi hnv
            cases i with
            | zero =>
              refine ⟨by simpa using hm, ?_⟩
              rw [getD_zero_eq_headD]
              simpa using hne
            | succ j =>
              have hj : j < ns.length := by
                simpa [Nat.succ_lt_succ_iff] using hi
              have := h j hj (by simpa using hnv)
              simpa [getD_succ_eq_tail_getD] using this
          · intro h j hj hnv
            have := h (j + 1) (by simpa [Nat.succ_lt_succ_iff] using hj)
              (by simpa using hnv)
            simpa [getD_succ_eq_tail_getD] using this

/-- C2: `ExternalCommand::isResultValid(v)` returns true iff `v` is a
successful-command value, its stored signature equals the signature
currently computed from the input and output node names, and for every
non-virtual output node the node's current file metadata is present and
equals the metadata stored in `v` at that output's index. -/
theorem c2_isResultValid_iff (cmd : ExtCommand) (hash : String → Nat)
    (value : BuildValue) :
    isResultValid cmd hash value = true ↔
      ∃ infos sig, value = BuildValue.successfulCommand infos sig ∧
        sig = getSignature cmd hash ∧
        ∀ i, (hi : i < cmd.outputs.length) →
          (cmd.outputs.get ⟨i, hi⟩).isVirtual = false →
            ((cmd.outputs.get ⟨i, hi⟩).fileInfo.isMissing = false ∧
             infos.getD i FileInfo.null =
               (cmd.outputs.get ⟨i, hi⟩).fileInfo) := by
  cases value with
  | successfulCommand infos sig =>
    by_cases hs : sig = getSignature cmd hash
    · subst hs
      have hval : isResultValid cmd hash
          (BuildValue.successfulCommand infos (getSignature cmd hash)) =
          checkOutputs cmd.outputs infos := by
        simp [isResultValid, BuildValue.isSuccessfulCommand,
              BuildValue.getCommandSignature, BuildValue.outputInfos]
      rw [hval, checkOutputs_eq_true_iff]
      constructor
      · intro h
        exact ⟨infos, getSignature cmd hash, rfl, rfl, h⟩
      · rintro ⟨infos1, sig1, heq, hsig, h4⟩
        injection heq with h1 h2
        subst h1
        exact h4
    · simp [isResultValid, BuildValue.isSuccessfulCommand,
            BuildValue.getCommandSignature, BuildValue.outputInfos, hs]
  | missingInput =>
    simp [isResultValid, BuildValue.isSuccessfulCommand]
  | existingInput info =>
    simp [isResultValid, BuildValue.isSuccessfulCommand]
  | virtualInput =>
    simp [isResultValid, BuildValue.isSuccessfulCommand]
  | failedInput =>
    simp [isResultValid, BuildValue.isSuccessfulCommand]
  | skippedCommand =>
    simp [isResultValid, BuildValue.isSuccessfulCommand]
  | failedCommand =>
    simp [isResultValid, BuildValue.isSuccessfulCommand]

/-- Witness for C2 at a concrete command, hash function and stored value. -/
theorem c2_isResultValid_iff_witness :
    isResultValid
      ⟨[⟨"a", false, ⟨false, 1⟩⟩], [⟨"out", false, ⟨false, 5⟩⟩]⟩
      (fun _ => 1)
      (BuildValue.successfulCommand [⟨false, 5⟩]
        (getSignature
          ⟨[⟨"a", false, ⟨false, 1⟩⟩], [⟨"out", false, ⟨false, 5⟩⟩]⟩
          (fun _ => 1))) = true :=
  (c2_isResultValid_iff
      ⟨[⟨"a", false, ⟨false, 1⟩⟩], [⟨"out", false, ⟨false, 5⟩⟩]⟩
      (fun _ => 1) _).mpr
    ⟨[⟨false, 5⟩], _, rfl, rfl, by decide⟩

theorem foldl_xor_hash_lt (l : List BuildNode) (hash : String → Nat)
    (init : Nat) (h0 : init < 2 ^ 64) (hb : ∀ s, hash s < 2 ^ 64) :
    l.foldl (fun r n => r ^^^ hash n.name) init < 2 ^ 64 := by
  induction l generalizing init with
  | nil => simpa using h0
  | cons n ns ih =>
    exact ih _ (Nat.xor_lt_two_pow h0 (hb n.name))

/-- C8: `ExternalCommand::getSignature()` is exactly the XOR of the hashes
of all input node names and all output node names, and stays a 64-bit
scalar whenever the underlying string hash produces 64-bit values. -/
theorem c8_signature_is_xor_of_names (cmd : ExtCommand)
    (hash : String → Nat) (hb : ∀ s, hash s < 2 ^ 64) :
    getSignature cmd hash =
      ((cmd.inputs ++ cmd.outputs).map (fun n => hash n.name)).foldl
        (· ^^^ ·) 0 ∧
    getSignature cmd hash < 2 ^ 64 := by
  constructor
  · simp [getSignature, List.map_append, List.foldl_append, List.foldl_map]
  · exact foldl_xor_hash_lt cmd.outputs hash _
      (foldl_xor_hash_lt cmd.inputs hash 0 (by norm_num) hb) hb

/-- Witness for C8 at a concrete command and hash function. -/
theorem c8_signature_is_xor_of_names_witness :
    getSignature ⟨[⟨"a", false, ⟨false, 1⟩⟩], [⟨"out", false, ⟨false, 5⟩⟩]⟩
        (fun s => s.length % 7) =
      (([(⟨"a", false, ⟨false, 1⟩⟩ : BuildNode)] ++
          [(⟨"out", false, ⟨false, 5⟩⟩ : BuildNode)]).map
        (fun n => n.name.length % 7)).foldl (· ^^^ ·) 0 ∧
    getSignature ⟨[⟨"a", false, ⟨false, 1⟩⟩], [⟨"out", false, ⟨false, 5⟩⟩]⟩
        (fun s => s.length % 7) < 2 ^ 64 :=
  c8_signature_is_xor_of_names
    ⟨[⟨"a", false, ⟨false, 1⟩⟩], [⟨"out", false, ⟨false, 5⟩⟩]⟩
    (fun s => s.length % 7)
    (fun s => lt_of_lt_of_le (Nat.mod_lt _ (by norm_num)) (by norm_num))

/-- C6: for a failed or skipped command value, `getResultForOutput`
produces a `FailedInput` value for every output node, so dependants
observe the failure as a typed failed input. -/
theorem c6_failure_projects_to_failed_input (cmd : ExtCommand)
    (node : BuildNode) (value : BuildValue)
    (h : value = BuildValue.failedCommand ∨
         value = BuildValue.skippedCommand) :
    getResultForOutput cmd node value = BuildValue.failedInput := by
  rcases h with h | h <;> subst h <;> rfl

/-- Witness for C6 at a concrete command, node and value. -/
theorem c6_failure_projects_to_failed_input_witness :
    getResultForOutput
      ⟨[⟨"a", false, ⟨false, 1⟩⟩], [⟨"out", false, ⟨false, 5⟩⟩]⟩
      ⟨"out", false, ⟨false, 5⟩⟩ BuildValue.failedCommand =
      BuildValue.failedInput :=
  c6_failure_projects_to_failed_input
    ⟨[⟨"a", false, ⟨false, 1⟩⟩], [⟨"out", false, ⟨false, 5⟩⟩]⟩
    ⟨"out", false, ⟨false, 5⟩⟩ BuildValue.failedCommand (Or.inl rfl)

theorem cmdProvideValue_shouldSkip (st : CmdTaskState) (v : BuildValue) :
    (cmdProvideValue st v).shouldSkip =
      (st.shouldSkip || (!v.isExistingInput && !v.isVirtualInput)) := by
  rw [cmdProvideValue]
  split
  · rename_i hcond
    simp [hcond]
  · rename_i hcond
    simp only [Bool.not_eq_true] at hcond
    simp [hcond]

theorem cmdStateAfterInputs_shouldSkip_aux (values : List BuildValue)
    (st : CmdTaskState) :
    (values.foldl cmdProvideValue st).shouldSkip =
      (st.shouldSkip ||
        values.any (fun v => !v.isExistingInput && !v.isVirtualInput)) := by
  induction values generalizing st with
  | nil => simp
  | cons v vs ih =>
    simp only [List.foldl_cons, List.any_cons]
    rw [ih, cmdProvideValue_shouldSkip]
    cases st.shouldSkip <;> simp

theorem cmdStateAfterInputs_shouldSkip (values : List BuildValue) :
    (cmdStateAfterInputs values).shouldSkip =
      values.any (fun v => !v.isExistingInput && !v.isVirtualInput) := by
  rw [cmdStateAfterInputs, cmdStateAfterInputs_shouldSkip_aux]
  simp [cmdStartState]

/-- C3: if any requested input resolves to a missing-input or failed-input
value, `inputsAvailable` completes the command with a `SkippedCommand`
value and submits no job to the execution queue; if every input resolves
to an existing or virtual input and the build is not cancelled, a job is
submitted to the queue. -/
theorem c3_skip_or_submit (values : List BuildValue) (cancelled : Bool) :
    ((∃ v ∈ values, v = BuildValue.missingInput ∨
        v = BuildValue.failedInput) →
      ∃ rep, cmdInputsAvailable (cmdStateAfterInputs values) cancelled =
        CmdOutcome.completed BuildValue.skippedCommand rep) ∧
    ((∀ v ∈ values, v.isExistingInput = true ∨ v.isVirtualInput = true) →
      cancelled = false →
      cmdInputsAvailable (cmdStateAfterInputs values) cancelled =
        CmdOutcome.submittedJob) := by
  constructor
  · rintro ⟨v, hv, hcase⟩
    have hskip : (cmdStateAfterInputs values).shouldSkip = true := by
      rw [cmdStateAfterInputs_shouldSkip]
      refine List.any_eq_true.mpr ⟨v, hv, ?_⟩
      rcases hcase with h | h <;> subst h <;> rfl
    rw [cmdInputsAvailable]
    cases cancelled with
    | true => exact ⟨false, rfl⟩
    | false =>
      rw [if_neg (by simp), if_pos hskip]
      exact ⟨(cmdStateAfterInputs values).hasMissingInput, rfl⟩
  · intro hall hcanc
    subst hcanc
    have hskip : (cmdStateAfterInputs values).shouldSkip = false := by
      rw [cmdStateAfterInputs_shouldSkip]
      simp only [List.any_eq_false]
      intro v hv
      rcases hall v hv with h | h <;> simp [h]
    rw [cmdInputsAvailable, if_neg (by simp), if_neg (by simp [hskip])]

/-- Witness for C3: a missing input forces a skip; all-good inputs submit
a job. -/
theorem c3_skip_or_submit_witness :
    (∃ rep, cmdInputsAvailable
        (cmdStateAfterInputs [BuildValue.missingInput]) false =
        CmdOutcome.completed BuildValue.skippedCommand rep) ∧
    cmdInputsAvailable
        (cmdStateAfterInputs [BuildValue.existingInput ⟨false, 3⟩]) false =
      CmdOutcome.submittedJob :=
  ⟨(c3_skip_or_submit [BuildValue.missingInput] false).1
      ⟨BuildValue.missingInput, by simp, Or.inl rfl⟩,
   (c3_skip_or_submit [BuildValue.existingInput ⟨false, 3⟩] false).2
      (by intro v hv; simp only [List.mem_singleton] at hv; subst hv
          exact Or.inl rfl) rfl⟩

/-! ## Build system frontend (`BuildSystemFrontend.cpp`) -/

/-- `BuildSystemFrontendDelegate::createExecutionQueue`: the number of
lanes the execution queue is created with.  `numCPUs` is the result of
`sysconf(_SC_NPROCESSORS_ONLN)` (negative on detection failure, which also
reports an error). -/
def createExecutionQueueLanes (serial : Bool) (numCPUs : Int) : Nat :=
  if serial then 1
  else if numCPUs < 0 then 1
  else numCPUs.toNat + 2

/-- C9 counterexample: there is no configured maximum `M` such that the
non-serial lane count equals `min(cores + 2, M)` for every detected core
count; the code uses `cores + 2` with no upper clamp. -/
theorem c9_lane_count_counterexample :
    ¬ ∃ M : Nat, ∀ cores : Nat,
      createExecutionQueueLanes false (Int.ofNat cores) =
        min (cores + 2) M := by
  rintro ⟨M, h⟩
  have h1 := h (M + 1)
  have h2 : createExecutionQueueLanes false (Int.ofNat (M + 1)) = M + 3 := by
    simp [createExecutionQueueLanes]
    omega
  rw [h2] at h1
  omega

/-- C9 amended: serial mode forces one lane; otherwise the queue gets
`detected_cores + 2` lanes with no configured maximum, falling back to one
lane when CPU detection fails (negative `sysconf` result). -/
theorem c9_lane_count_amended (serial : Bool) (numCPUs : Int) :
    (serial = true → createExecutionQueueLanes serial numCPUs = 1) ∧
    (serial = false → 0 ≤ numCPUs →
      createExecutionQueueLanes serial numCPUs = numCPUs.toNat + 2) ∧
    (serial = false → numCPUs < 0 →
      createExecutionQueueLanes serial numCPUs = 1) := by
  refine ⟨fun hs => ?_, fun hs hcpu => ?_, fun hs hcpu => ?_⟩ <;>
    subst hs <;> simp [createExecutionQueueLanes]
  · omega
  · exact hcpu

/-- Witness for the amended C9 at concrete inputs. -/
theorem c9_lane_count_amended_witness :
    createExecutionQueueLanes false 4 = 6 ∧
    createExecutionQueueLanes true 4 = 1 ∧
    createExecutionQueueLanes false (-1) = 1 :=
  ⟨by
    have := (c9_lane_count_amended false 4).2.1 rfl (by norm_num)
    simpa using this,
   (c9_lane_count_amended true 4).1 rfl,
   (c9_lane_count_amended false (-1)).2.2 rfl (by norm_num)⟩

/-- The inputs `BuildSystemFrontend::build` depends on: which setup steps
are requested and succeed, whether the underlying `system.build` call
returns true, and the delegate counter increments contributed during the
build (`numErrors` from `error()` calls, `numFailedCommands` from
`hadCommandFailure()`). -/
structure FrontendInvocation where
  chdirPathEmpty : Bool
  chdirOk : Bool
  traceFilePathEmpty : Bool
  traceOk : Bool
  dbPathEmpty : Bool
  dbOk : Bool
  buildOk : Bool
  buildErrors : Nat
  buildFailedCommands : Nat

/-- `BuildSystemFrontend::build`: returns the reported success flag
together with the delegate's final `numErrors` and `numFailedCommands`
counters.  Every failing setup step reports an error (incrementing
`numErrors`) and returns failure before the build runs; a nonzero
failed-command count after the build reports one more error; otherwise
success is `numErrors == 0`. -/
def frontendBuild (inv : FrontendInvocation) : Bool × Nat × Nat :=
  if !inv.chdirPathEmpty && !inv.chdirOk then (false, 1, 0)
  else if !inv.traceFilePathEmpty && !inv.traceOk then (false, 1, 0)
  else if !inv.dbPathEmpty && !inv.dbOk then (false, 1, 0)
  else if !inv.buildOk then (false, inv.buildErrors, inv.buildFailedCommands)
  else if inv.buildFailedCommands ≠ 0 then
    (false, inv.buildErrors + 1, inv.buildFailedCommands)
  else (inv.buildErrors == 0, inv.buildErrors, inv.buildFailedCommands)

/-- C7: `BuildSystemFrontend::build` reports success iff the underlying
build succeeds and the delegate's failed-command and error counters are
both zero at exit; if either counter is nonzero the result is failure. -/
theorem c7_exit_status (inv : FrontendInvocation) :
    ((frontendBuild inv).1 = true ↔
      (inv.buildOk = true ∧ (frontendBuild inv).2.2 = 0 ∧
       (frontendBuild inv).2.1 = 0)) ∧
    ((frontendBuild inv).2.1 ≠ 0 ∨ (frontendBuild inv).2.2 ≠ 0 →
      (frontendBuild inv).1 = false) := by
  rw [frontendBuild]
  split
  · exact ⟨by simp, fun _ => rfl⟩
  · split
    · exact ⟨by simp, fun _ => rfl⟩
    · split
      · exact ⟨by simp, fun _ => rfl⟩
      · split
        · rename_i h1 h2 h3 h4
          simp only [Bool.not_eq_eq_eq_not, Bool.not_true] at h4
          exact ⟨by simp [h4], fun _ => rfl⟩
        · split
          · rename_i h1 h2 h3 h4 h5
            exact ⟨by simp [h5], fun _ => rfl⟩
          · rename_i h1 h2 h3 h4 h5
            have h4x : inv.buildOk = true := by
              revert h4
              cases inv.buildOk <;> simp
            simp only [ne_eq, Decidable.not_not] at h5
            constructor
            · simp [h4x, h5]
            · intro hor
              rcases hor with he | hf
              · simp only [ne_eq] at he
                simp [he]
              · exact absurd h5 hf

/-- Witness for C7: a build with two failed commands reports failure. -/
theorem c7_exit_status_witness :
    (frontendBuild ⟨true, true, true, true, true, true, true, 0, 2⟩).1 =
      false :=
  (c7_exit_status ⟨true, true, true, true, true, true, true, 0, 2⟩).2
    (Or.inr (by decide))

/-! ## Build-description loader (`BuildFile.cpp`) -/

/-- A YAML document node as consumed by `BuildFileImpl::parseRootNode`.
`other` stands for the remaining `llvm::yaml` node kinds (null, alias),
which the loader treats as neither scalar nor mapping nor sequence. -/
inductive YNode where
  | scalar (s : String)
  | mapping (entries : List (YNode × YNode))
  | sequence (items : List YNode)
  | other

/-- `BuildFileImpl::nodeIsScalarString`. -/
def nodeIsScalarString (node : YNode) (name : String) : Bool :=
  match node with
  | .scalar s => s == name
  | _ => false

/-- The four optional top-level sections in their fixed order. -/
def sectionName (i : Nat) : String :=
  if i = 0 then "tools"
  else if i = 1 then "targets"
  else if i = 2 then "nodes"
  else "commands"

/-- The position of a section name in the fixed order, `none` for unknown
names. -/
def sectionIndex (s : String) : Option Nat :=
  if s = "tools" then some 0
  else if s = "targets" then some 1
  else if s = "nodes" then some 2
  else if s = "commands" then some 3
  else none

/-- Dispatch to the sub-parser of the `i`-th optional section. -/
def sectionParser (pt ptg pn pcmd : List (YNode × YNode) → Bool)
    (i : Nat) : List (YNode × YNode) → Bool :=
  if i = 0 then pt else if i = 1 then ptg else if i = 2 then pn else pcmd

/-- The optional-section sequence of `parseRootNode`, paired with the
sub-parser used for each (the sub-parsers `parseToolsMapping`,
`parseTargetsMapping`, `parseNodesMapping`, `parseCommandsMapping` are
taken as parameters; their own error accounting is internal to them). -/
def fullSpecs (pt ptg pn pcmd : List (YNode × YNode) → Bool) :
    List (String × (List (YNode × YNode) → Bool)) :=
  [("tools", pt), ("targets", ptg), ("nodes", pn), ("commands", pcmd)]

/-- The optional-section cascade of `BuildFileImpl::parseRootNode` after
the `client` section: each section spec is tried in order against the
current entry; a name match requires a mapping value and a successful
sub-parse; an entry matching no remaining spec is an "unexpected trailing
top-level section" error.  Returns the success flag and the number of
errors reported at root level (sub-parser errors are counted inside the
sub-parsers). -/
def parseSections (specs : List (String × (List (YNode × YNode) → Bool)))
    (entries : List (YNode × YNode)) : Bool × Nat :=
  match entries, specs with
  | [], _ => (true, 0)
  | _ :: _, [] => (false, 1)
  | (k, v) :: rest, (name, p) :: specs2 =>
    if nodeIsScalarString k name then
      match v with
      | .mapping m => if p m then parseSections specs2 rest else (false, 0)
      | _ => (false, 1)
    else parseSections specs2 ((k, v) :: rest)

/-- `BuildFileImpl::parseRootNode`: the root must be a mapping whose first
key is `client` with a mapping value accepted by `parseClientMapping`
(parameter `pc`), followed by the optional sections in their fixed order
and nothing else.  (For an empty root mapping the C++ dereferences the
end iterator; this is modelled as the missing-`client` error path.) -/
def parseRootNode (pc pt ptg pn pcmd : List (YNode × YNode) → Bool)
    (root : YNode) : Bool × Nat :=
  match root with
  | .mapping [] => (false, 1)
  | .mapping ((k, v) :: rest) =>
    if !nodeIsScalarString k "client" then (false, 1)
    else
      match v with
      | .mapping centries =>
        if pc centries then parseSections (fullSpecs pt ptg pn pcmd) rest
        else (false, 0)
      | _ => (false, 1)
  | _ => (false, 1)

/-- Modelled from the spec: the top-level sections a document may carry
after `client` form a subsequence of `tools`, `targets`, `nodes`,
`commands` in this fixed order, each a known section name with a mapping
value accepted by its sub-parser; unknown or out-of-order sections are
rejected.  `minIdx` is the position the next section must be at or
after. -/
def specSectionsOk (pt ptg pn pcmd : List (YNode × YNode) → Bool)
    (minIdx : Nat) : List (YNode × YNode) → Bool
  | [] => true
  | (k, v) :: rest =>
    match k with
    | .scalar s =>
      match sectionIndex s with
      | some j =>
        decide (minIdx ≤ j) &&
        (match v with
         | .mapping m => sectionParser pt ptg pn pcmd j m
         | _ => false) &&
        specSectionsOk pt ptg pn pcmd (j + 1) rest
      | none => false
    | _ => false

/-- Modelled from the spec: a well-formed build-description document is a
mapping starting with a `client` section (a mapping accepted by the client
parser) followed by the optional sections in the fixed order. -/
def specRootAccepts (pc pt ptg pn pcmd : List (YNode × YNode) → Bool)
    (root : YNode) : Bool :=
  match root with
  | .mapping ((k, v) :: rest) =>
    nodeIsScalarString k "client" &&
    (match v with
     | .mapping centries => pc centries
     | _ => false) &&
    specSectionsOk pt ptg pn pcmd 0 rest
  | _ => false

theorem sectionIndex_some (s : String) (j : Nat)
    (h : sectionIndex s = some j) : s = sectionName j ∧ j < 4 := by
  rw [sectionIndex] at h
  split at h
  · cases h; exact ⟨by assumption, by norm_num⟩
  · split at h
    · cases h; exact ⟨by assumption, by norm_num⟩
    · split at h
      · cases h; exact ⟨by assumption, by norm_num⟩
      · split at h
        · cases h; exact ⟨by assumption, by norm_num⟩
        · cases h

theorem sectionIndex_sectionName (i : Nat) (hi : i < 4) :
    sectionIndex (sectionName i) = some i := by
  interval_cases i <;> rfl

theorem fullSpecs_drop (pt ptg pn pcmd : List (YNode × YNode) → Bool)
    (i : Nat) (hi : i < 4) :
    (fullSpecs pt ptg pn pcmd).drop i =
      (sectionName i, sectionParser pt ptg pn pcmd i) ::
        (fullSpecs pt ptg pn pcmd).drop (i + 1) := by
  interval_cases i <;> rfl

theorem nodeIsScalarString_eq_true (k : YNode) (name : String)
    (h : nodeIsScalarString k name = true) : k = YNode.scalar name := by
  cases k with
  | scalar s =>
    rw [nodeIsScalarString] at h
    simp only [beq_iff_eq] at h
    rw [h]
  | mapping es => cases h
  | sequence l => cases h
  | other => cases h

theorem specSectionsOk_skip (pt ptg pn pcmd : List (YNode × YNode) → Bool)
    (i : Nat) (hi : i < 4) (k v : YNode) (rest : List (YNode × YNode))
    (hk : nodeIsScalarString k (sectionName i) = false) :
    specSectionsOk pt ptg pn pcmd i ((k, v) :: rest) =
      specSectionsOk pt ptg pn pcmd (i + 1) ((k, v) :: rest) := by
  cases k with
  | scalar s =>
    simp only [specSectionsOk]
    cases hsi : sectionIndex s with
    | none => rfl
    | some j =>
      dsimp only
      obtain ⟨hs, hj4⟩ := sectionIndex_some s j hsi
      have hji : j ≠ i := by
        intro hji
        subst hji
        rw [hs] at hk
        rw [nodeIsScalarString] at hk
        simp at hk
      have : (decide (i ≤ j)) = (decide (i + 1 ≤ j)) := by
        rcases Nat.lt_or_ge j i with hlt | hge
        · rw [decide_eq_false (by omega), decide_eq_false (by omega)]
        · rw [decide_eq_true (by omega), decide_eq_true (by omega)]
      rw [this]
  | mapping es => rfl
  | sequence l => rfl
  | other => rfl

theorem parseSections_eq_spec (pt ptg pn pcmd : List (YNode × YNode) → Bool)
    (i : Nat) (entries : List (YNode × YNode)) :
    (parseSections ((fullSpecs pt ptg pn pcmd).drop i) entries).1 =
      specSectionsOk pt ptg pn pcmd i entries := by
  match entries with
  | [] =>
    cases h : (fullSpecs pt ptg pn pcmd).drop i <;>
      simp [parseSections, specSectionsOk]
  | (k, v) :: rest =>
    by_cases hi : 4 ≤ i
    · have hdrop : (fullSpecs pt ptg pn pcmd).drop i = [] := by
        apply List.drop_eq_nil_of_le
        simp [fullSpecs]
        omega
      rw [hdrop]
      cases k with
      | scalar s =>
        simp only [parseSections, specSectionsOk]
        cases hsi : sectionIndex s with
        | none => rfl
        | some j =>
          dsimp only
          obtain ⟨hs, hj4⟩ := sectionIndex_some s j hsi
          rw [decide_eq_false (by omega)]
          simp
      | mapping es => rfl
      | sequence l => rfl
      | other => rfl
    · push_neg at hi
      rw [fullSpecs_drop pt ptg pn pcmd i hi]
      by_cases hk : nodeIsScalarString k (sectionName i) = true
      · have hkk := nodeIsScalarString_eq_true k (sectionName i) hk
        subst hkk
        simp only [parseSections, specSectionsOk,
          sectionIndex_sectionName i hi]
        rw [if_pos hk, decide_eq_true (Nat.le_refl i)]
        cases v with
        | mapping m =>
          have ih := parseSections_eq_spec pt ptg pn pcmd (i + 1) rest
          cases hp : sectionParser pt ptg pn pcmd i m with
          | true => simpa [hp] using ih
          | false => simp [hp]
        | scalar s2 => simp
        | sequence l => simp
        | other => simp
      · have hk2 : nodeIsScalarString k (sectionName i) = false := by
          revert hk
          cases nodeIsScalarString k (sectionName i) <;> simp
        simp only [parseSections]
        rw [if_neg hk]
        have ih := parseSections_eq_spec pt ptg pn pcmd (i + 1) ((k, v) :: rest)
        rw [ih]
        exact (specSectionsOk_skip pt ptg pn pcmd i hi k v rest hk2).symm
termination_by 4 - i
decreasing_by
  · omega
  · omega

theorem parseRootNode_eq_spec (pc pt ptg pn pcmd : List (YNode × YNode) → Bool)
    (root : YNode) :
    (parseRootNode pc pt ptg pn pcmd root).1 =
      specRootAccepts pc pt ptg pn pcmd root := by
  cases root with
  | mapping entries =>
    cases entries with
    | nil => rfl
    | cons e rest =>
      obtain ⟨k, v⟩ := e
      cases hk : nodeIsScalarString k "client" with
      | true =>
        simp only [parseRootNode, specRootAccepts, hk, Bool.not_true,
          Bool.false_eq_true, if_false, Bool.true_and]
        cases v with
        | mapping centries =>
          cases hpc : pc centries with
          | true =>
            have hps := parseSections_eq_spec pt ptg pn pcmd 0 rest
            rw [List.drop_zero] at hps
            simp [hpc, hps]
          | false => simp [hpc]
        | scalar s2 => simp
        | sequence l => simp
        | other => simp
      | false =>
        simp [parseRootNode, specRootAccepts, hk]
  | scalar s => rfl
  | sequence l => rfl
  | other => rfl

theorem parseSections_allTrue
    (specs : List (String × (List (YNode × YNode) → Bool)))
    (entries : List (YNode × YNode))
    (hp : ∀ q ∈ specs, ∀ m, q.2 m = true) :
    parseSections specs entries = (true, 0) ∨
      parseSections specs entries = (false, 1) := by
  induction specs generalizing entries with
  | nil =>
    cases entries with
    | nil => exact Or.inl rfl
    | cons e rest => exact Or.inr rfl
  | cons q specs2 ih =>
    obtain ⟨name, p⟩ := q
    cases entries with
    | nil => exact Or.inl rfl
    | cons e rest =>
      obtain ⟨k, v⟩ := e
      simp only [parseSections]
      by_cases hk : nodeIsScalarString k name = true
      · rw [if_pos hk]
        cases v with
        | mapping m =>
          dsimp only
          have hpm : p m = true := hp ⟨name, p⟩ (by simp) m
          rw [hpm, if_pos rfl]
          exact ih rest (fun q2 hq2 m2 => hp q2 (by simp [hq2]) m2)
        | scalar s2 => exact Or.inr rfl
        | sequence l => exact Or.inr rfl
        | other => exact Or.inr rfl
      · rw [if_neg hk]
        exact ih ((k, v) :: rest) (fun q2 hq2 m2 => hp q2 (by simp [hq2]) m2)

/-- C5: the build-description loader accepts top-level sections only in
the fixed order `client`, `tools`, `targets`, `nodes`, `commands`, where
`client` is required as the first key and each other section is optional;
a document whose first key is not `client`, or that has any section left
over after this sequence (including unknown section names), fails the
root-node parse, and when the sub-parsers themselves accept, every such
failure comes with a root-level error report. -/
theorem c5_root_node_section_order
    (pc pt ptg pn pcmd : List (YNode × YNode) → Bool) (root : YNode) :
    ((parseRootNode pc pt ptg pn pcmd root).1 =
      specRootAccepts pc pt ptg pn pcmd root) ∧
    ((∀ m, pc m = true) → (∀ m, pt m = true) → (∀ m, ptg m = true) →
      (∀ m, pn m = true) → (∀ m, pcmd m = true) →
      (parseRootNode pc pt ptg pn pcmd root).1 = false →
      1 ≤ (parseRootNode pc pt ptg pn pcmd root).2) := by
  refine ⟨parseRootNode_eq_spec pc pt ptg pn pcmd root, ?_⟩
  intro hpc hpt hptg hpn hpcmd hfail
  cases root with
  | mapping entries =>
    cases entries with
    | nil => simp [parseRootNode]
    | cons e rest =>
      obtain ⟨k, v⟩ := e
      cases hk : nodeIsScalarString k "client" with
      | true =>
        simp only [parseRootNode, hk, Bool.not_true, Bool.false_eq_true,
          if_false] at hfail ⊢
        cases v with
        | mapping centries =>
          dsimp only at hfail ⊢
          rw [hpc centries, if_pos rfl] at hfail ⊢
          have hall : ∀ q ∈ fullSpecs pt ptg pn pcmd, ∀ m, q.2 m = true := by
            intro q hq m
            rw [fullSpecs] at hq
            simp only [List.mem_cons, List.not_mem_nil, or_false] at hq
            rcases hq with h | h | h | h <;> subst h
            · exact hpt m
            · exact hptg m
            · exact hpn m
            · exact hpcmd m
          rcases parseSections_allTrue (fullSpecs pt ptg pn pcmd) rest hall
            with hres | hres
          · rw [hres] at hfail
            cases hfail
          · rw [hres]
        | scalar s2 => simp
        | sequence l => simp
        | other => simp
      | false =>
        simp [parseRootNode, hk]
  | scalar s => simp [parseRootNode]
  | sequence l => simp [parseRootNode]
  | other => simp [parseRootNode]

/-- Witness for C5: a document with a trailing unknown section is rejected
with a root-level error. -/
theorem c5_root_node_section_order_witness :
    1 ≤ (parseRootNode (fun _ => true) (fun _ => true) (fun _ => true)
      (fun _ => true) (fun _ => true)
      (YNode.mapping [(YNode.scalar "client", YNode.mapping []),
                      (YNode.scalar "bogus", YNode.mapping [])])).2 :=
  (c5_root_node_section_order (fun _ => true) (fun _ => true) (fun _ => true)
      (fun _ => true) (fun _ => true)
      (YNode.mapping [(YNode.scalar "client", YNode.mapping []),
                      (YNode.scalar "bogus", YNode.mapping [])])).2
    (fun _ => rfl) (fun _ => rfl) (fun _ => rfl) (fun _ => rfl) (fun _ => rfl)
    (by rfl)

/-! ## Core build engine, modelled from the specification

The engine implementation (`BuildEngine.cpp`) is not part of this source
snapshot; only its unit tests (`BuildEngineTest.cpp`) are.  The following
model is built from the specification's build algorithm: per-key results
carrying value, built/checked iterations and the recorded dependency set;
dependency scanning that re-runs a rule when its validator rejects the
stored value or a dependency's built iteration is newer than the rule's
own; execution that delivers declared input values to the task, records
discovered dependencies without delivering their values, and persists the
result. -/

/-- A persisted result record: the computed value, the iteration the task
last ran, the iteration the result was last confirmed valid, and the
recorded dependency set (declared then discovered). -/
structure EResult where
  value : Int
  builtIter : Nat
  checkedIter : Nat
  deps : List String
  deriving DecidableEq

/-- A rule as used by the discovered-dependency scenario: declared inputs
requested in `start`, dependencies reported via `taskDiscoveredDependency`
in `inputsAvailable`, the task body computing the value from the
*delivered* input values only, and an optional validator for the stored
value. -/
structure RuleM where
  inputs : List String
  discovered : List String
  compute : List Int → Int
  validator : Option (Int → Bool)

/-- In-memory engine state during a build: the result table and the trace
of rules whose tasks were executed, in execution order. -/
structure EngineState where
  results : List (String × EResult)
  trace : List String

def lookupResult (st : EngineState) (key : String) : Option EResult :=
  (st.results.find? (fun p => p.1 == key)).map (·.2)

def setResult (st : EngineState) (key : String) (r : EResult) : EngineState :=
  { st with results := (key, r) :: st.results }

/-- Modelled from the spec: task execution for one rule (the missing
`BuildEngine.cpp` execution phase).  The task is created (recorded in the
trace), its declared inputs are resolved and their values delivered in
order, its discovered dependencies are resolved but their values are not
delivered, and the result record `{value, built-iteration = current,
checked-iteration = current, declared ++ discovered deps}` is written. -/
def runRule (dem : EngineState → String → EngineState × Int)
    (iter : Nat) (st : EngineState) (key : String) (rl : RuleM) :
    EngineState × Int :=
  let st0 : EngineState := { st with trace := st.trace ++ [key] }
  let acc := rl.inputs.foldl
    (fun (acc : EngineState × List Int) k =>
      let r := dem acc.1 k
      (r.1, acc.2 ++ [r.2])) (st0, [])
  let st2 := rl.discovered.foldl (fun s k => (dem s k).1) acc.1
  let v := rl.compute acc.2
  (setResult st2 key ⟨v, iter, iter, rl.inputs ++ rl.discovered⟩, v)

/-- Modelled from the spec: demand-driven scanning and execution of one
key (the missing `BuildEngine.cpp` scanning loop).  A key already checked
this iteration returns its value; otherwise, if no prior result exists or
the validator rejects the stored value, the rule runs; otherwise its
recorded dependency set is scanned in order, re-running the rule as soon
as a dependency's built iteration exceeds the rule's own, and otherwise
marking the stored result checked for this iteration.  `fuel` bounds the
recursion depth and is chosen larger than any demand chain in the
scenarios below. -/
def demand (rules : List (String × RuleM)) (iter : Nat) :
    Nat → EngineState → String → EngineState × Int
  | 0, st, _ => (st, 0)
  | Nat.succ fuel, st, key =>
    match lookupResult st key with
    | some r =>
      if r.checkedIter == iter then (st, r.value)
      else
        match (rules.find? (fun p => p.1 == key)).map (·.2) with
        | none => (st, r.value)
        | some rl =>
          let valid := match rl.validator with
            | none => true
            | some f => f r.value
          if !valid then runRule (demand rules iter fuel) iter st key rl
          else
            let scan := r.deps.foldl
              (fun (acc : EngineState × Bool) dk =>
                if acc.2 then acc
                else
                  let s2 := (demand rules iter fuel acc.1 dk).1
                  let newer := match lookupResult s2 dk with
                    | some dr => decide (r.builtIter < dr.builtIter)
                    | none => true
                  (s2, newer)) (st, false)
            if scan.2 then runRule (demand rules iter fuel) iter scan.1 key rl
            else (setResult scan.1 key { r with checkedIter := iter }, r.value)
    | none =>
      match (rules.find? (fun p => p.1 == key)).map (·.2) with
      | none => (st, 0)
      | some rl => runRule (demand rules iter fuel) iter st key rl

/-- One top-level `build(key)` call at a given iteration, starting from a
persisted result table and an empty trace. -/
def buildOnce (rules : List (String × RuleM)) (db : List (String × EResult))
    (iter : Nat) (key : String) : EngineState × Int :=
  demand rules iter 10 { results := db, trace := [] } key

/-- The rule set of the discovered-dependency scenario
(`BuildEngineTest.discoveredDependencies`), parameterised by the current
external values of A and B: `value-A` and `value-B` produce those values
with validators comparing the stored value against them; `output` declares
`value-A` up front, discovers `value-B` in `inputsAvailable`, and returns
`A * B * 5`, reading B's value out of band. -/
def ddRules (a b : Int) : List (String × RuleM) :=
  [("value-A", ⟨[], [], fun _ => a, some (fun v => v == a)⟩),
   ("value-B", ⟨[], [], fun _ => b, some (fun v => v == b)⟩),
   ("output", ⟨["value-A"], ["value-B"],
      fun vals => vals.getD 0 0 * b * 5, none⟩)]

/-- C1: in the discovered-dependency scenario, the first build returns
`2*3*5`, executes exactly {output, value-A, value-B} in that order, and
records the discovered key `value-B` in `output`'s persisted dependency
set even though its value is never delivered to the task; a second build
with nothing changed executes nothing; after only B's value changes
(3 to 7) the next build returns `2*7*5` and re-executes exactly the rules
for `value-B` and `output`, in that order. -/
theorem c1_discovered_dependency_scenario :
    (buildOnce (ddRules 2 3) [] 1 "output").2 = 30 ∧
    (buildOnce (ddRules 2 3) [] 1 "output").1.trace =
      ["output", "value-A", "value-B"] ∧
    (lookupResult (buildOnce (ddRules 2 3) [] 1 "output").1 "output").map
      (fun r => r.deps) = some ["value-A", "value-B"] ∧
    (buildOnce (ddRules 2 3)
        (buildOnce (ddRules 2 3) [] 1 "output").1.results 2 "output").2 =
      30 ∧
    (buildOnce (ddRules 2 3)
        (buildOnce (ddRules 2 3) [] 1 "output").1.results 2 "output").1.trace =
      [] ∧
    (buildOnce (ddRules 2 7)
        (buildOnce (ddRules 2 3)
          (buildOnce (ddRules 2 3) [] 1 "output").1.results 2 "output").1.results
        3 "output").2 = 70 ∧
    (buildOnce (ddRules 2 7)
        (buildOnce (ddRules 2 3)
          (buildOnce (ddRules 2 3) [] 1 "output").1.results 2 "output").1.results
        3 "output").1.trace = ["value-B", "output"] := by
  refine ⟨?_, ?_, ?_, ?_, ?_, ?_, ?_⟩ <;> decide
